import Mathlib

/-!
Shallow embedding of circomspect's constraint analysis pass
(`program_analysis/src/constraint_analysis.rs`) and proofs about it.

The pass walks a CFG statement by statement, records definitions and
declarations, and builds a symmetric constraint graph from
constraint-generating statements.  It exposes single-step and multi-step
(transitive-closure) queries over that graph.

The IR types (`VariableName`, `VariableUse`, `Statement`, `Cfg`) live in the
`program_structure` crate, which is not part of the analysed sources; they are
modelled from the specification (see the doc comments below).  The analysis
itself (`ConstraintAnalysis` and `run_constraint_analysis`) is translated
directly from the source.
-/

/-- Modelled from the spec: `VariableName` is an interned, comparable
identifier for a logical variable; equality is by name.  We model interned
names as natural numbers. -/
abbrev VariableName := Nat

/-- Modelled from the spec: one element of a `VariableUse` access path
(array index or component member suffix). -/
inductive AccessAtom where
  | arrayIndex (i : Nat)
  | componentMember (m : Nat)
deriving DecidableEq, Repr

/-- Modelled from the spec: `VariableUse` is a single occurrence of a variable
at a statement location, carrying the name, an access path (possibly empty)
and the originating location (`meta`) for diagnostics. -/
structure VariableUse where
  meta : Nat
  name : VariableName
  accesses : List AccessAtom
deriving DecidableEq, Repr

/-- The assignment operators of the IR (`AssignOp` in the source); only
`assignConstraintSignal` (`<==`) generates constraints. -/
inductive AssignOp where
  | assignLocalOrComponent
  | assignSignal
  | assignConstraintSignal
deriving DecidableEq, Repr

/-- Modelled from the spec: a `Statement` is a tagged variant (Declaration,
Substitution with an `AssignOp`, ConstraintEquality, and other kinds such as
control flow) exposing the variable uses it reads and writes.  Declarations
and constraint equalities write nothing; `other` covers the remaining
variants with their read/write sets. -/
inductive Statement where
  | declaration (meta : Nat) (names : List VariableName)
  | substitution (meta : Nat) (op : AssignOp) (written used : List VariableUse)
  | constraintEquality (meta : Nat) (used : List VariableUse)
  | other (meta : Nat) (written used : List VariableUse)
deriving DecidableEq, Repr

/-- Modelled from the spec: the variable uses a statement writes
(`variables_written`). -/
def Statement.variablesWritten : Statement → List VariableUse
  | .declaration _ _ => []
  | .substitution _ _ written _ => written
  | .constraintEquality _ _ => []
  | .other _ written _ => written

/-- Modelled from the spec: the variable uses a statement reads
(`variables_used`). -/
def Statement.variablesUsed : Statement → List VariableUse
  | .declaration _ _ => []
  | .substitution _ _ _ used => used
  | .constraintEquality _ used => used
  | .other _ _ used => used

/-- Modelled from the spec: a basic block is an ordered sequence of
statements. -/
abbrev BasicBlock := List Statement

/-- Modelled from the spec: a CFG is an ordered collection of basic blocks
(the analysis only iterates the blocks in order, so edges are irrelevant
here). -/
structure Cfg where
  blocks : List BasicBlock
deriving DecidableEq, Repr

/-- The statements of a CFG in visit order (blocks in order, statements in
block order). -/
def Cfg.stmts (cfg : Cfg) : List Statement :=
  cfg.blocks.flatten

/-- The result of the analysis pass: three maps keyed by `VariableName`
(`constraint_map`, `declarations`, `definitions` in the source).  Hash maps
are modelled as association lists where insertion prepends a binding and
lookup takes the first match. -/
structure ConstraintAnalysis where
  constraint_map : List (VariableName × Finset VariableName)
  declarations : List (VariableName × VariableUse)
  definitions : List (VariableName × VariableUse)
deriving DecidableEq

namespace ConstraintAnalysis

/-- Source `ConstraintAnalysis::new` / `default`: all three maps empty. -/
def new : ConstraintAnalysis := ⟨[], [], []⟩

/-- Lookup in an association list modelling a hash map: first binding wins. -/
def alistFind {α : Type _} (m : List (VariableName × α)) (k : VariableName) : Option α :=
  (m.find? (fun p => p.fst = k)).map (fun p => p.snd)

/-- Source `add_definition`: insert the written use into `definitions`, keyed by its
name (overwriting any previous binding). -/
def add_definition (ca : ConstraintAnalysis) (var : VariableUse) : ConstraintAnalysis :=
  { ca with definitions := (var.name, var) :: ca.definitions }

/-- Source `get_definition`: the recorded defining use of a variable, if any. -/
def get_definition (ca : ConstraintAnalysis) (var : VariableName) : Option VariableUse :=
  alistFind ca.definitions var

/-- Source `definitions()`: the recorded defining uses. -/
def definitionsList (ca : ConstraintAnalysis) : List VariableUse :=
  ca.definitions.map (fun p => p.snd)

/-- Source `add_declaration`: insert the declaring use into `declarations`, keyed by
its name. -/
def add_declaration (ca : ConstraintAnalysis) (var : VariableUse) : ConstraintAnalysis :=
  { ca with declarations := (var.name, var) :: ca.declarations }

/-- Source `get_declaration`: the recorded declaring use of a variable, if any. -/
def get_declaration (ca : ConstraintAnalysis) (var : VariableName) : Option VariableUse :=
  alistFind ca.declarations var

/-- Source `declarations()`: the recorded declaring uses. -/
def declarationsList (ca : ConstraintAnalysis) : List VariableUse :=
  ca.declarations.map (fun p => p.snd)

/-- Source `add_constraint_step`: add `sink` to the neighbor set of `source`
(`constraint_map.entry(source).or_default().insert(sink)`). -/
def add_constraint_step (ca : ConstraintAnalysis) (source sink : VariableName) :
    ConstraintAnalysis :=
  { ca with constraint_map :=
      (source, insert sink ((alistFind ca.constraint_map source).getD ∅)) :: ca.constraint_map }

/-- Source `single_step_constraint`: the variables constrained in a single step by
`source` (empty when `source` has no entry). -/
def single_step_constraint (ca : ConstraintAnalysis) (source : VariableName) :
    Finset VariableName :=
  (alistFind ca.constraint_map source).getD ∅

/-- All names occurring in `constraint_map` (keys and sinks); the finite
universe that bounds the closure computation. -/
def mapNames (ca : ConstraintAnalysis) : Finset VariableName :=
  ca.constraint_map.foldr (fun p acc => insert p.fst (p.snd ∪ acc)) ∅

/-- One round of the worklist loop body:
`update.iter().flat_map(|source| self.single_step_constraint(source)).collect()`. -/
def stepSet (ca : ConstraintAnalysis) (update : Finset VariableName) : Finset VariableName :=
  update.biUnion (fun source => ca.single_step_constraint source)

theorem single_step_subset_mapNames (ca : ConstraintAnalysis) (source : VariableName) :
    ca.single_step_constraint source ⊆ ca.mapNames := by
  unfold single_step_constraint alistFind mapNames
  induction ca.constraint_map with
  | nil => simp
  | cons p rest ih =>
    by_cases h : p.fst = source
    · rw [List.find?_cons_of_pos _ (by simp [h])]
      intro x hx
      simp only [Option.map_some', Option.getD_some, List.foldr_cons] at hx ⊢
      exact Finset.mem_insert_of_mem (Finset.mem_union_left _ hx)
    · rw [List.find?_cons_of_neg _ (by simp [h])]
      intro x hx
      simp only [List.foldr_cons]
      exact Finset.mem_insert_of_mem (Finset.mem_union_right _ (ih hx))

theorem stepSet_subset_mapNames (ca : ConstraintAnalysis) (update : Finset VariableName) :
    ca.stepSet update ⊆ ca.mapNames := by
  intro x hx
  rcases Finset.mem_biUnion.mp hx with ⟨s, _, hs⟩
  exact ca.single_step_subset_mapNames s hs

/-- The worklist loop of `multi_step_constraint`:
`while !update.is_subset(&result) { result.extend(update); update = stepSet(update); }`. -/
def msLoop (ca : ConstraintAnalysis) (result update : Finset VariableName) :
    Finset VariableName :=
  if update ⊆ result then result
  else msLoop ca (result ∪ update) (ca.stepSet update)
termination_by ((ca.mapNames ∪ result ∪ update) \ result).card
decreasing_by
  have hstep : ca.stepSet update ⊆ ca.mapNames := ca.stepSet_subset_mapNames update
  have hbase : ca.mapNames ∪ (result ∪ update) ∪ ca.stepSet update =
      ca.mapNames ∪ result ∪ update := by
    ext x
    simp only [Finset.mem_union]
    have hx : x ∈ ca.stepSet update → x ∈ ca.mapNames := fun hh => hstep hh
    tauto
  rw [hbase]
  apply Finset.card_lt_card
  rw [Finset.ssubset_def]
  refine ⟨Finset.sdiff_subset_sdiff (Finset.Subset.refl _) Finset.subset_union_left,
    fun hsub => ?_⟩
  rcases Finset.not_subset.mp (by assumption) with ⟨x, hxu, hxr⟩
  have hx1 : x ∈ (ca.mapNames ∪ result ∪ update) \ result := by
    simp [Finset.mem_sdiff, Finset.mem_union, hxu, hxr]
  have hx2 := hsub hx1
  simp [Finset.mem_sdiff, Finset.mem_union, hxu] at hx2

/-- Source `multi_step_constraint`: variables constrained in one or more steps by
`source`; the worklist fixpoint started from the single-step neighbors. -/
def multi_step_constraint (ca : ConstraintAnalysis) (source : VariableName) :
    Finset VariableName :=
  msLoop ca ∅ (ca.single_step_constraint source)

/-- Source `constrains_any`: true if the source multi-step constrains any sink. -/
def constrains_any (ca : ConstraintAnalysis) (source : VariableName)
    (sinks : Finset VariableName) : Bool :=
  (ca.multi_step_constraint source).filter (fun sink => sink ∈ sinks) ≠ ∅

/-- Source `constrained_variables`: all names that key at least one single-step
edge. -/
def constrained_variables (ca : ConstraintAnalysis) : Finset VariableName :=
  (ca.constraint_map.map (fun p => p.fst)).toFinset

end ConstraintAnalysis

/-- The bare names of the variable uses a statement reads. -/
def Statement.usedNames (s : Statement) : List VariableName :=
  s.variablesUsed.map (fun u => u.name)

/-- The bare names of the variable uses a statement writes. -/
def Statement.writtenNames (s : Statement) : List VariableName :=
  s.variablesWritten.map (fun u => u.name)

/-- The names introduced by a declaration statement (empty for other kinds). -/
def Statement.declaredNames : Statement → List VariableName
  | .declaration _ names => names
  | _ => []

/-- Whether a statement falls into the constraint-generating match arm of the
build pass: `ConstraintEquality { .. } | Substitution { op: AssignConstraintSignal, .. }`. -/
def Statement.isConstraintGenerating : Statement → Bool
  | .constraintEquality _ _ => true
  | .substitution _ op _ _ => op = .assignConstraintSignal
  | _ => false

/-- The inner loop of the constraint-generating match arm: for a fixed
`source`, add a constraint step to every `sink` in `used` with a different
name. -/
def addSinkEdges (ca : ConstraintAnalysis) (source : VariableUse) (used : List VariableUse) :
    ConstraintAnalysis :=
  used.foldl
    (fun ca sink =>
      if source.name ≠ sink.name then ca.add_constraint_step source.name sink.name else ca)
    ca

/-- The nested source/sink loops of the constraint-generating match arm: for
every ordered pair of uses from `used` with distinct names, add a constraint
step. -/
def addConstraintEdges (ca : ConstraintAnalysis) (used : List VariableUse) :
    ConstraintAnalysis :=
  used.foldl (fun ca source => addSinkEdges ca source used) ca

/-- The body of the statement loop in `run_constraint_analysis`: record every
written variable as a definition, then dispatch on the statement kind. -/
def processStatement (ca : ConstraintAnalysis) (stmt : Statement) : ConstraintAnalysis :=
  let ca1 := stmt.variablesWritten.foldl (fun ca var => ca.add_definition var) ca
  match stmt with
  | .declaration meta names =>
      names.foldl (fun ca sink => ca.add_declaration (VariableUse.mk meta sink [])) ca1
  | .constraintEquality _ _ => addConstraintEdges ca1 stmt.variablesUsed
  | .substitution _ op _ _ =>
      if op = .assignConstraintSignal then addConstraintEdges ca1 stmt.variablesUsed else ca1
  | .other _ _ _ => ca1

/-- Source `run_constraint_analysis`: walk every basic block in order and every
statement in block order, building the analysis result. -/
def run_constraint_analysis (cfg : Cfg) : ConstraintAnalysis :=
  cfg.blocks.foldl (fun ca block => block.foldl processStatement ca) ConstraintAnalysis.new

namespace ConstraintAnalysis

theorem msLoop_of_subset (ca : ConstraintAnalysis) (r u : Finset VariableName) (h : u ⊆ r) :
    msLoop ca r u = r := by
  rw [msLoop]
  simp [h]

theorem msLoop_of_not_subset (ca : ConstraintAnalysis) (r u : Finset VariableName)
    (h : ¬u ⊆ r) : msLoop ca r u = msLoop ca (r ∪ u) (ca.stepSet u) := by
  rw [msLoop]
  simp [h]

/-- The loop only grows its result: both the accumulated result and the
current update set end up in the final set. -/
theorem subset_msLoop (ca : ConstraintAnalysis) (r u : Finset VariableName) :
    r ∪ u ⊆ msLoop ca r u := by
  induction r, u using msLoop.induct ca with
  | case1 r u h =>
      rw [msLoop_of_subset ca r u h]
      exact Finset.union_subset (Finset.Subset.refl r) h
  | case2 r u h ih =>
      rw [msLoop_of_not_subset ca r u h]
      exact fun x hx => ih (Finset.mem_union_left _ hx)

/-- Closure invariant: if every member of the result has its neighbors inside
result-or-update, the final set is closed under single-step neighbors. -/
theorem msLoop_closed (ca : ConstraintAnalysis) :
    ∀ r u : Finset VariableName,
      (∀ x ∈ r, ca.single_step_constraint x ⊆ r ∪ u) →
      ∀ x ∈ msLoop ca r u, ca.single_step_constraint x ⊆ msLoop ca r u := by
  intro r u
  induction r, u using msLoop.induct ca with
  | case1 r u h =>
      intro hinv x hx
      rw [msLoop_of_subset ca r u h] at hx ⊢
      exact (hinv x hx).trans (by rw [Finset.union_eq_left.mpr h])
  | case2 r u h ih =>
      intro hinv
      rw [msLoop_of_not_subset ca r u h]
      apply ih
      intro y hy
      rcases Finset.mem_union.mp hy with hy | hy
      · exact (hinv y hy).trans Finset.subset_union_left
      · exact (Finset.subset_biUnion_of_mem (fun s => ca.single_step_constraint s) hy).trans
          Finset.subset_union_right

/-- Minimality invariant: any set containing result and update and closed
under single-step neighbors contains the final set. -/
theorem msLoop_minimal (ca : ConstraintAnalysis) :
    ∀ (r u S : Finset VariableName), r ⊆ S → u ⊆ S →
      (∀ x ∈ S, ca.single_step_constraint x ⊆ S) → msLoop ca r u ⊆ S := by
  intro r u
  induction r, u using msLoop.induct ca with
  | case1 r u h =>
      intro S hr _ _
      rw [msLoop_of_subset ca r u h]
      exact hr
  | case2 r u h ih =>
      intro S hr hu hS
      rw [msLoop_of_not_subset ca r u h]
      refine ih S (Finset.union_subset hr hu) ?_ hS
      intro x hx
      rcases Finset.mem_biUnion.mp hx with ⟨s, hs, hxs⟩
      exact hS s (hu hs) hxs

/-- The result of the loop stays inside the finite universe of names: the map
names together with what was already in result and update. -/
theorem msLoop_subset_bound (ca : ConstraintAnalysis) :
    ∀ r u : Finset VariableName, msLoop ca r u ⊆ ca.mapNames ∪ r ∪ u := by
  intro r u
  induction r, u using msLoop.induct ca with
  | case1 r u h =>
      rw [msLoop_of_subset ca r u h]
      intro x hx
      simp [Finset.mem_union, hx]
  | case2 r u h ih =>
      rw [msLoop_of_not_subset ca r u h]
      refine ih.trans ?_
      intro x hx
      simp only [Finset.mem_union] at hx ⊢
      have hstep : x ∈ ca.stepSet u → x ∈ ca.mapNames :=
        fun hh => ca.stepSet_subset_mapNames u hh
      tauto

/-- The single-step neighbors of the source are contained in its multi-step
constraint set. -/
theorem single_step_subset_multi (ca : ConstraintAnalysis) (source : VariableName) :
    ca.single_step_constraint source ⊆ ca.multi_step_constraint source := by
  unfold multi_step_constraint
  exact fun x hx => subset_msLoop ca ∅ _ (Finset.mem_union_right _ hx)

/-- The multi-step constraint set is closed under single-step neighbors. -/
theorem multi_step_closed (ca : ConstraintAnalysis) (source : VariableName) :
    ∀ x ∈ ca.multi_step_constraint source,
      ca.single_step_constraint x ⊆ ca.multi_step_constraint source := by
  unfold multi_step_constraint
  exact msLoop_closed ca ∅ _ (by simp)

/-- The multi-step constraint set is contained in every set that contains the
single-step neighbors of the source and is closed under single-step
neighbors. -/
theorem multi_step_minimal (ca : ConstraintAnalysis) (source : VariableName)
    (S : Finset VariableName) (h1 : ca.single_step_constraint source ⊆ S)
    (h2 : ∀ x ∈ S, ca.single_step_constraint x ⊆ S) :
    ca.multi_step_constraint source ⊆ S := by
  unfold multi_step_constraint
  exact msLoop_minimal ca ∅ _ S (Finset.empty_subset S) h1 h2

/-- The multi-step constraint set is bounded by the names occurring in the
constraint map. -/
theorem multi_step_subset_mapNames (ca : ConstraintAnalysis) (source : VariableName) :
    ca.multi_step_constraint source ⊆ ca.mapNames := by
  unfold multi_step_constraint
  refine (msLoop_subset_bound ca ∅ _).trans ?_
  intro x hx
  simp only [Finset.mem_union, Finset.not_mem_empty, or_false, false_or] at hx
  rcases hx with hx | hx
  · exact hx
  · exact ca.single_step_subset_mapNames source hx

/-- A source with no single-step neighbors has an empty multi-step set. -/
theorem multi_step_empty_of_single_empty (ca : ConstraintAnalysis) (source : VariableName)
    (h : ca.single_step_constraint source = ∅) : ca.multi_step_constraint source = ∅ := by
  unfold multi_step_constraint
  rw [h, msLoop_of_subset ca ∅ ∅ (Finset.Subset.refl ∅)]

theorem single_step_new (a : VariableName) : new.single_step_constraint a = ∅ := rfl

theorem single_step_eq_of_map_eq {ca1 ca2 : ConstraintAnalysis}
    (h : ca1.constraint_map = ca2.constraint_map) (a : VariableName) :
    ca1.single_step_constraint a = ca2.single_step_constraint a := by
  unfold single_step_constraint alistFind
  rw [h]

theorem single_step_add_constraint_step (ca : ConstraintAnalysis) (s k a : VariableName) :
    (ca.add_constraint_step s k).single_step_constraint a =
      if a = s then insert k (ca.single_step_constraint s)
      else ca.single_step_constraint a := by
  by_cases h : a = s
  · subst h
    rw [if_pos rfl]
    unfold add_constraint_step single_step_constraint alistFind
    rw [List.find?_cons_of_pos _ (by simp)]
    simp
  · rw [if_neg h]
    unfold add_constraint_step single_step_constraint alistFind
    rw [List.find?_cons_of_neg _ (by simp [Ne.symm h])]

theorem mem_single_step_add_constraint_step (ca : ConstraintAnalysis)
    (s k a b : VariableName) :
    b ∈ (ca.add_constraint_step s k).single_step_constraint a ↔
      (a = s ∧ b = k) ∨ b ∈ ca.single_step_constraint a := by
  rw [single_step_add_constraint_step]
  by_cases h : a = s
  · subst h
    simp [Finset.mem_insert]
  · simp [h]

end ConstraintAnalysis

open ConstraintAnalysis in
theorem mem_single_step_addSinkEdges (source : VariableUse) :
    ∀ (used : List VariableUse) (ca : ConstraintAnalysis) (a b : VariableName),
      b ∈ (addSinkEdges ca source used).single_step_constraint a ↔
        b ∈ ca.single_step_constraint a ∨
          (a = source.name ∧ b ∈ used.map VariableUse.name ∧ source.name ≠ b) := by
  intro used
  induction used with
  | nil =>
      intro ca a b
      simp [addSinkEdges]
  | cons kUse rest ih =>
      intro ca a b
      have hstep : addSinkEdges ca source (kUse :: rest) =
          addSinkEdges
            (if source.name ≠ kUse.name
             then ca.add_constraint_step source.name kUse.name else ca) source rest := by
        simp [addSinkEdges]
      rw [hstep, ih]
      simp only [List.map_cons, List.mem_cons]
      by_cases hk : source.name = kUse.name
      · rw [if_neg (by simp [hk])]
        constructor
        · rintro (hb | ⟨ha, hbr, hne⟩)
          · exact Or.inl hb
          · exact Or.inr ⟨ha, Or.inr hbr, hne⟩
        · rintro (hb | ⟨ha, hbk | hbr, hne⟩)
          · exact Or.inl hb
          · exact absurd (hk.trans hbk.symm) hne
          · exact Or.inr ⟨ha, hbr, hne⟩
      · rw [if_pos hk, mem_single_step_add_constraint_step]
        constructor
        · rintro ((⟨ha, hb⟩ | hb) | ⟨ha, hbr, hne⟩)
          · exact Or.inr ⟨ha, Or.inl hb, fun hh => hk (hb ▸ hh)⟩
          · exact Or.inl hb
          · exact Or.inr ⟨ha, Or.inr hbr, hne⟩
        · rintro (hb | ⟨ha, hbk | hbr, hne⟩)
          · exact Or.inl (Or.inr hb)
          · exact Or.inl (Or.inl ⟨ha, hbk⟩)
          · exact Or.inr ⟨ha, hbr, hne⟩

open ConstraintAnalysis in
theorem mem_single_step_addConstraintEdges_aux (used : List VariableUse) :
    ∀ (srcs : List VariableUse) (ca : ConstraintAnalysis) (a b : VariableName),
      b ∈ ((srcs.foldl (fun ca source => addSinkEdges ca source used) ca).single_step_constraint
          a) ↔
        b ∈ ca.single_step_constraint a ∨
          (a ∈ srcs.map VariableUse.name ∧ b ∈ used.map VariableUse.name ∧ a ≠ b) := by
  intro srcs
  induction srcs with
  | nil =>
      intro ca a b
      simp
  | cons s rest ih =>
      intro ca a b
      rw [List.foldl_cons, ih, mem_single_step_addSinkEdges]
      simp only [List.map_cons, List.mem_cons]
      constructor
      · rintro ((hb | ⟨ha, hbu, hne⟩) | ⟨ha, hbu, hne⟩)
        · exact Or.inl hb
        · exact Or.inr ⟨Or.inl ha, hbu, fun hh => hne (ha ▸ hh)⟩
        · exact Or.inr ⟨Or.inr ha, hbu, hne⟩
      · rintro (hb | ⟨ha | ha, hbu, hne⟩)
        · exact Or.inl (Or.inl hb)
        · exact Or.inl (Or.inr ⟨ha, hbu, fun hh => hne (by rw [ha]; exact hh)⟩)
        · exact Or.inr ⟨ha, hbu, hne⟩

open ConstraintAnalysis in
theorem mem_single_step_addConstraintEdges (ca : ConstraintAnalysis) (used : List VariableUse)
    (a b : VariableName) :
    b ∈ (addConstraintEdges ca used).single_step_constraint a ↔
      b ∈ ca.single_step_constraint a ∨
        (a ∈ used.map VariableUse.name ∧ b ∈ used.map VariableUse.name ∧ a ≠ b) := by
  unfold addConstraintEdges
  exact mem_single_step_addConstraintEdges_aux used used ca a b

theorem constraint_map_add_definition_fold (l : List VariableUse) :
    ∀ ca : ConstraintAnalysis,
      (l.foldl (fun ca var => ca.add_definition var) ca).constraint_map = ca.constraint_map := by
  induction l with
  | nil => intro ca; rfl
  | cons v rest ih =>
      intro ca
      rw [List.foldl_cons, ih]
      rfl

theorem constraint_map_add_declaration_fold (meta : Nat) (names : List VariableName) :
    ∀ ca : ConstraintAnalysis,
      (names.foldl (fun ca sink => ca.add_declaration (VariableUse.mk meta sink [])) ca
        ).constraint_map = ca.constraint_map := by
  induction names with
  | nil => intro ca; rfl
  | cons n rest ih =>
      intro ca
      rw [List.foldl_cons, ih]
      rfl

open ConstraintAnalysis in
theorem mem_single_step_processStatement (stmt : Statement) (ca : ConstraintAnalysis)
    (a b : VariableName) :
    b ∈ (processStatement ca stmt).single_step_constraint a ↔
      b ∈ ca.single_step_constraint a ∨
        (stmt.isConstraintGenerating = true ∧ a ∈ stmt.usedNames ∧ b ∈ stmt.usedNames ∧
          a ≠ b) := by
  cases stmt with
  | declaration meta names =>
      simp only [processStatement, Statement.variablesWritten, List.foldl_nil,
        Statement.isConstraintGenerating]
      rw [single_step_eq_of_map_eq (constraint_map_add_declaration_fold meta names ca) a]
      simp
  | constraintEquality meta used =>
      simp only [processStatement, Statement.variablesWritten, List.foldl_nil,
        Statement.variablesUsed, Statement.isConstraintGenerating, Statement.usedNames]
      rw [mem_single_step_addConstraintEdges]
      simp
  | substitution meta op written used =>
      simp only [processStatement, Statement.variablesWritten, Statement.variablesUsed,
        Statement.isConstraintGenerating, Statement.usedNames]
      by_cases hop : op = AssignOp.assignConstraintSignal
      · rw [if_pos hop, mem_single_step_addConstraintEdges,
          single_step_eq_of_map_eq (constraint_map_add_definition_fold written ca) a]
        simp [hop]
      · rw [if_neg hop,
          single_step_eq_of_map_eq (constraint_map_add_definition_fold written ca) a]
        simp [hop]
  | other meta written used =>
      simp only [processStatement, Statement.variablesWritten,
        Statement.isConstraintGenerating]
      rw [single_step_eq_of_map_eq (constraint_map_add_definition_fold written ca) a]
      simp

theorem run_eq_foldl (cfg : Cfg) :
    run_constraint_analysis cfg = cfg.stmts.foldl processStatement ConstraintAnalysis.new := by
  unfold run_constraint_analysis Cfg.stmts
  rw [List.foldl_flatten]

open ConstraintAnalysis in
theorem mem_single_step_foldl (l : List Statement) :
    ∀ (ca : ConstraintAnalysis) (a b : VariableName),
      b ∈ (l.foldl processStatement ca).single_step_constraint a ↔
        b ∈ ca.single_step_constraint a ∨
          ∃ s ∈ l, s.isConstraintGenerating = true ∧ a ∈ s.usedNames ∧ b ∈ s.usedNames ∧
            a ≠ b := by
  induction l with
  | nil =>
      intro ca a b
      simp
  | cons s rest ih =>
      intro ca a b
      rw [List.foldl_cons, ih, mem_single_step_processStatement]
      constructor
      · rintro ((hb | hprops) | ⟨t, ht, hprops⟩)
        · exact Or.inl hb
        · exact Or.inr ⟨s, List.mem_cons_self s rest, hprops⟩
        · exact Or.inr ⟨t, List.mem_cons_of_mem s ht, hprops⟩
      · rintro (hb | ⟨t, ht, hprops⟩)
        · exact Or.inl (Or.inl hb)
        · rcases List.mem_cons.mp ht with rfl | ht
          · exact Or.inl (Or.inr hprops)
          · exact Or.inr ⟨t, ht, hprops⟩

/-- Characterization of the constraint graph produced by the build pass: `b`
is a single-step neighbor of `a` exactly when some constraint-generating
statement of the CFG reads both names and they are distinct. -/
theorem mem_single_step_run (cfg : Cfg) (a b : VariableName) :
    b ∈ (run_constraint_analysis cfg).single_step_constraint a ↔
      ∃ s ∈ cfg.stmts, s.isConstraintGenerating = true ∧ a ∈ s.usedNames ∧
        b ∈ s.usedNames ∧ a ≠ b := by
  rw [run_eq_foldl, mem_single_step_foldl]
  simp [ConstraintAnalysis.single_step_new]

/-- The meta (location) component of a statement. -/
def Statement.metaOf : Statement → Nat
  | .declaration m _ => m
  | .substitution m _ _ _ => m
  | .constraintEquality m _ => m
  | .other m _ _ => m

/-- All variable uses written by the CFG, in visit order. -/
def Cfg.allWrites (cfg : Cfg) : List VariableUse :=
  cfg.stmts.flatMap Statement.variablesWritten

open ConstraintAnalysis in
theorem definitions_add_definition_fold (l : List VariableUse) :
    ∀ ca : ConstraintAnalysis,
      (l.foldl (fun ca var => ca.add_definition var) ca).definitions =
        (l.map (fun u => (u.name, u))).reverse ++ ca.definitions := by
  induction l with
  | nil => intro ca; simp
  | cons v rest ih =>
      intro ca
      rw [List.foldl_cons, ih]
      simp [add_definition]

open ConstraintAnalysis in
theorem definitions_addSinkEdges (source : VariableUse) :
    ∀ (used : List VariableUse) (ca : ConstraintAnalysis),
      (addSinkEdges ca source used).definitions = ca.definitions := by
  intro used
  induction used with
  | nil => intro ca; rfl
  | cons k rest ih =>
      intro ca
      have hstep : addSinkEdges ca source (k :: rest) =
          addSinkEdges
            (if source.name ≠ k.name
             then ca.add_constraint_step source.name k.name else ca) source rest := by
        simp [addSinkEdges]
      rw [hstep, ih]
      by_cases h : source.name = k.name
      · rw [if_neg (by simp [h])]
      · rw [if_pos h]
        rfl

open ConstraintAnalysis in
theorem definitions_addConstraintEdges (used : List VariableUse) :
    ∀ (srcs : List VariableUse) (ca : ConstraintAnalysis),
      (srcs.foldl (fun ca source => addSinkEdges ca source used) ca).definitions =
        ca.definitions := by
  intro srcs
  induction srcs with
  | nil => intro ca; rfl
  | cons s rest ih =>
      intro ca
      rw [List.foldl_cons, ih, definitions_addSinkEdges]

open ConstraintAnalysis in
theorem definitions_add_declaration_fold (meta : Nat) (names : List VariableName) :
    ∀ ca : ConstraintAnalysis,
      (names.foldl (fun ca sink => ca.add_declaration (VariableUse.mk meta sink [])) ca
        ).definitions = ca.definitions := by
  induction names with
  | nil => intro ca; rfl
  | cons n rest ih =>
      intro ca
      rw [List.foldl_cons, ih]
      rfl

open ConstraintAnalysis in
theorem definitions_processStatement (ca : ConstraintAnalysis) (stmt : Statement) :
    (processStatement ca stmt).definitions =
      (stmt.variablesWritten.map (fun u => (u.name, u))).reverse ++ ca.definitions := by
  cases stmt with
  | declaration meta names =>
      simp only [processStatement, Statement.variablesWritten, List.foldl_nil]
      rw [definitions_add_declaration_fold]
      simp
  | constraintEquality meta used =>
      simp only [processStatement, Statement.variablesWritten, List.foldl_nil,
        Statement.variablesUsed, addConstraintEdges]
      rw [definitions_addConstraintEdges]
      simp
  | substitution meta op written used =>
      simp only [processStatement, Statement.variablesWritten, Statement.variablesUsed]
      by_cases hop : op = AssignOp.assignConstraintSignal
      · rw [if_pos hop]
        show (addConstraintEdges _ _).definitions = _
        rw [addConstraintEdges, definitions_addConstraintEdges,
          definitions_add_definition_fold]
      · rw [if_neg hop, definitions_add_definition_fold]
  | other meta written used =>
      simp only [processStatement, Statement.variablesWritten]
      rw [definitions_add_definition_fold]

open ConstraintAnalysis in
theorem definitions_foldl (l : List Statement) :
    ∀ ca : ConstraintAnalysis,
      (l.foldl processStatement ca).definitions =
        ((l.flatMap Statement.variablesWritten).map (fun u => (u.name, u))).reverse ++
          ca.definitions := by
  induction l with
  | nil => intro ca; simp
  | cons s rest ih =>
      intro ca
      rw [List.foldl_cons, ih, definitions_processStatement]
      simp [List.flatMap_cons, List.reverse_append, List.append_assoc]

/-- The `definitions` map built by the pass is exactly the written uses of
the CFG, keyed by name, most recent first. -/
theorem definitions_run (cfg : Cfg) :
    (run_constraint_analysis cfg).definitions =
      (cfg.allWrites.map (fun u => (u.name, u))).reverse := by
  rw [run_eq_foldl, definitions_foldl]
  simp [Cfg.allWrites, ConstraintAnalysis.new]

/-- Lemma: `get_definition` after the pass returns the chronologically last written
use with the queried name. -/
theorem get_definition_run (cfg : Cfg) (n : VariableName) :
    (run_constraint_analysis cfg).get_definition n =
      cfg.allWrites.reverse.find? (fun u => u.name = n) := by
  unfold ConstraintAnalysis.get_definition ConstraintAnalysis.alistFind
  rw [definitions_run, ← List.map_reverse, List.find?_map]
  have hcomp :
      ((fun p : VariableName × VariableUse => decide (p.fst = n)) ∘ fun u => (u.name, u)) =
        fun u : VariableUse => decide (u.name = n) := rfl
  rw [hcomp, Option.map_map]
  have hsnd : ((fun p : VariableName × VariableUse => p.snd) ∘ fun u => (u.name, u)) = id :=
    rfl
  rw [hsnd, Option.map_id]
  rfl

/-- The declaration-map entries a statement contributes: each declared name
keyed to a use with the statement's location and an empty access path
(`VariableUse::new(meta, sink, &Vec::new())` in the source). -/
def Statement.declEntries (s : Statement) : List (VariableName × VariableUse) :=
  s.declaredNames.map (fun nm => (nm, VariableUse.mk s.metaOf nm []))

open ConstraintAnalysis in
theorem declarations_add_definition_fold (l : List VariableUse) :
    ∀ ca : ConstraintAnalysis,
      (l.foldl (fun ca var => ca.add_definition var) ca).declarations = ca.declarations := by
  induction l with
  | nil => intro ca; rfl
  | cons v rest ih =>
      intro ca
      rw [List.foldl_cons, ih]
      rfl

open ConstraintAnalysis in
theorem declarations_addSinkEdges (source : VariableUse) :
    ∀ (used : List VariableUse) (ca : ConstraintAnalysis),
      (addSinkEdges ca source used).declarations = ca.declarations := by
  intro used
  induction used with
  | nil => intro ca; rfl
  | cons k rest ih =>
      intro ca
      have hstep : addSinkEdges ca source (k :: rest) =
          addSinkEdges
            (if source.name ≠ k.name
             then ca.add_constraint_step source.name k.name else ca) source rest := by
        simp [addSinkEdges]
      rw [hstep, ih]
      by_cases h : source.name = k.name
      · rw [if_neg (by simp [h])]
      · rw [if_pos h]
        rfl

open ConstraintAnalysis in
theorem declarations_addConstraintEdges (used : List VariableUse) :
    ∀ (srcs : List VariableUse) (ca : ConstraintAnalysis),
      (srcs.foldl (fun ca source => addSinkEdges ca source used) ca).declarations =
        ca.declarations := by
  intro srcs
  induction srcs with
  | nil => intro ca; rfl
  | cons s rest ih =>
      intro ca
      rw [List.foldl_cons, ih, declarations_addSinkEdges]

open ConstraintAnalysis in
theorem declarations_add_declaration_fold (meta : Nat) (names : List VariableName) :
    ∀ ca : ConstraintAnalysis,
      (names.foldl (fun ca sink => ca.add_declaration (VariableUse.mk meta sink [])) ca
        ).declarations =
        (names.map (fun nm => (nm, VariableUse.mk meta nm []))).reverse ++
          ca.declarations := by
  induction names with
  | nil => intro ca; simp
  | cons n rest ih =>
      intro ca
      rw [List.foldl_cons, ih]
      simp [add_declaration]

open ConstraintAnalysis in
theorem declarations_processStatement (ca : ConstraintAnalysis) (stmt : Statement) :
    (processStatement ca stmt).declarations =
      stmt.declEntries.reverse ++ ca.declarations := by
  cases stmt with
  | declaration meta names =>
      simp only [processStatement, Statement.variablesWritten, List.foldl_nil,
        Statement.declEntries, Statement.declaredNames, Statement.metaOf]
      rw [declarations_add_declaration_fold]
  | constraintEquality meta used =>
      simp only [processStatement, Statement.variablesWritten, List.foldl_nil,
        Statement.variablesUsed, addConstraintEdges, Statement.declEntries,
        Statement.declaredNames]
      rw [declarations_addConstraintEdges]
      simp
  | substitution meta op written used =>
      simp only [processStatement, Statement.variablesWritten, Statement.variablesUsed,
        Statement.declEntries, Statement.declaredNames]
      by_cases hop : op = AssignOp.assignConstraintSignal
      · rw [if_pos hop]
        show (addConstraintEdges _ _).declarations = _
        rw [addConstraintEdges, declarations_addConstraintEdges,
          declarations_add_definition_fold]
        simp
      · rw [if_neg hop, declarations_add_definition_fold]
        simp
  | other meta written used =>
      simp only [processStatement, Statement.variablesWritten, Statement.declEntries,
        Statement.declaredNames]
      rw [declarations_add_definition_fold]
      simp

open ConstraintAnalysis in
theorem declarations_foldl (l : List Statement) :
    ∀ ca : ConstraintAnalysis,
      (l.foldl processStatement ca).declarations =
        (l.flatMap Statement.declEntries).reverse ++ ca.declarations := by
  induction l with
  | nil => intro ca; simp
  | cons s rest ih =>
      intro ca
      rw [List.foldl_cons, ih, declarations_processStatement]
      simp [List.flatMap_cons, List.reverse_append, List.append_assoc]

/-- The `declarations` map built by the pass is exactly the per-statement
declaration entries, most recent first. -/
theorem declarations_run (cfg : Cfg) :
    (run_constraint_analysis cfg).declarations =
      (cfg.stmts.flatMap Statement.declEntries).reverse := by
  rw [run_eq_foldl, declarations_foldl]
  simp [ConstraintAnalysis.new]

/-- Every entry of the built declarations map pairs a declared name of the
CFG with a use of that name carrying an empty access path. -/
theorem mem_declarations_run (cfg : Cfg) (p : VariableName × VariableUse)
    (hp : p ∈ (run_constraint_analysis cfg).declarations) :
    p.fst ∈ cfg.stmts.flatMap Statement.declaredNames ∧ p.snd.name = p.fst ∧
      p.snd.accesses = [] := by
  rw [declarations_run, List.mem_reverse, List.mem_flatMap] at hp
  rcases hp with ⟨s, hs, hpe⟩
  unfold Statement.declEntries at hpe
  rcases List.mem_map.mp hpe with ⟨nm, hnm, hpeq⟩
  refine ⟨?_, ?_, ?_⟩
  · rw [List.mem_flatMap]
    exact ⟨s, hs, hpeq ▸ hnm⟩
  · rw [← hpeq]
  · rw [← hpeq]

open ConstraintAnalysis in
theorem single_step_run_symm (cfg : Cfg) (a b : VariableName)
    (h : b ∈ (run_constraint_analysis cfg).single_step_constraint a) :
    a ∈ (run_constraint_analysis cfg).single_step_constraint b := by
  rw [mem_single_step_run] at h ⊢
  rcases h with ⟨s, hs, hcg, ha, hb, hne⟩
  exact ⟨s, hs, hcg, hb, ha, hne.symm⟩

open ConstraintAnalysis in
theorem get_declaration_run_eq_none (cfg : Cfg) (n : VariableName)
    (h : ∀ s ∈ cfg.stmts, n ∉ s.declaredNames) :
    (run_constraint_analysis cfg).get_declaration n = none := by
  unfold ConstraintAnalysis.get_declaration ConstraintAnalysis.alistFind
  simp only [Option.map_eq_none', List.find?_eq_none]
  intro p hp
  have hmem := (mem_declarations_run cfg p hp).1
  rw [List.mem_flatMap] at hmem
  rcases hmem with ⟨s, hs, hn⟩
  simp only [decide_eq_true_eq]
  intro heq
  exact h s hs (heq ▸ hn)

open ConstraintAnalysis in
theorem get_definition_run_eq_none (cfg : Cfg) (n : VariableName)
    (h : ∀ s ∈ cfg.stmts, n ∉ s.writtenNames) :
    (run_constraint_analysis cfg).get_definition n = none := by
  rw [get_definition_run, List.find?_eq_none]
  intro u hu
  rw [List.mem_reverse] at hu
  unfold Cfg.allWrites at hu
  rw [List.mem_flatMap] at hu
  rcases hu with ⟨s, hs, hus⟩
  simp only [decide_eq_true_eq]
  intro heq
  have hin : n ∈ s.writtenNames := by
    unfold Statement.writtenNames
    exact heq ▸ List.mem_map_of_mem _ hus
  exact h s hs hin

open ConstraintAnalysis in
theorem single_step_run_empty (cfg : Cfg) (n : VariableName)
    (h : ∀ s ∈ cfg.stmts, s.isConstraintGenerating = true → n ∉ s.usedNames) :
    (run_constraint_analysis cfg).single_step_constraint n = ∅ := by
  rw [Finset.eq_empty_iff_forall_not_mem]
  intro b hb
  rw [mem_single_step_run] at hb
  rcases hb with ⟨s, hs, hcg, hn, _, _⟩
  exact h s hs hcg hn

/-- The last-writer-wins reading of the definitions map: among all variable
uses written by the CFG (in visit order), the last one carrying the queried
name. -/
def lastWriteUse (cfg : Cfg) (n : VariableName) : Option VariableUse :=
  cfg.allWrites.reverse.find? (fun u => u.name = n)

/-- A CFG whose single statement is one constraint between variables 0 and 1
(the smallest symmetric constraint graph). -/
def cfgPair : Cfg :=
  ⟨[[Statement.constraintEquality 0 [VariableUse.mk 0 0 [], VariableUse.mk 0 1 []]]]⟩

/-- A CFG whose single statement is one constraint reading the three
variables 0, 1, 2. -/
def cfgTriple : Cfg :=
  ⟨[[Statement.constraintEquality 0
      [VariableUse.mk 0 0 [], VariableUse.mk 0 1 [], VariableUse.mk 0 2 []]]]⟩

/-- The component of the source's test `test_single_step_constraint`,
first variant, with `in` = 0, `out` = 1, `tmp` = 2:
declarations of the three signals, then `tmp <== 2*in; out <== in*in;`. -/
def cfgA : Cfg :=
  ⟨[[Statement.declaration 0 [0], Statement.declaration 0 [1], Statement.declaration 0 [2],
     Statement.substitution 1 AssignOp.assignConstraintSignal
       [VariableUse.mk 1 2 []] [VariableUse.mk 1 2 [], VariableUse.mk 1 0 []],
     Statement.substitution 2 AssignOp.assignConstraintSignal
       [VariableUse.mk 2 1 []] [VariableUse.mk 2 1 [], VariableUse.mk 2 0 []]]]⟩

/-- The second variant of the test: `tmp === 2*in;` (a constraint equality,
which writes nothing) in place of the constraint assignment. -/
def cfgB : Cfg :=
  ⟨[[Statement.declaration 0 [0], Statement.declaration 0 [1], Statement.declaration 0 [2],
     Statement.constraintEquality 1 [VariableUse.mk 1 2 [], VariableUse.mk 1 0 []],
     Statement.substitution 2 AssignOp.assignConstraintSignal
       [VariableUse.mk 2 1 []] [VariableUse.mk 2 1 [], VariableUse.mk 2 0 []]]]⟩

/-- A CFG that declares variable 9 and never writes it. -/
def cfgDecl : Cfg := ⟨[[Statement.declaration 0 [9]]]⟩

/-- C1: for every variable `A`, `multi_step_constraint A` is the smallest set
`S` with `single_step_constraint A ⊆ S` that is closed under taking
single-step neighbors of its members: it is such a set, and it is contained
in every such set. -/
theorem claim_C1_multi_step_least_closed (ca : ConstraintAnalysis) (A : VariableName) :
    (ca.single_step_constraint A ⊆ ca.multi_step_constraint A ∧
      ∀ X ∈ ca.multi_step_constraint A,
        ca.single_step_constraint X ⊆ ca.multi_step_constraint A) ∧
    ∀ S : Finset VariableName, ca.single_step_constraint A ⊆ S →
      (∀ X ∈ S, ca.single_step_constraint X ⊆ S) →
      ca.multi_step_constraint A ⊆ S :=
  ⟨⟨ca.single_step_subset_multi A, ca.multi_step_closed A⟩,
   fun S h1 h2 => ca.multi_step_minimal A S h1 h2⟩

/-- C1 witness: on the concrete pair graph, the minimality half pins the
multi-step set of 0 inside the closed set {0, 1}. -/
theorem claim_C1_witness :
    (run_constraint_analysis cfgPair).multi_step_constraint 0 ⊆ {0, 1} :=
  (claim_C1_multi_step_least_closed (run_constraint_analysis cfgPair) 0).2 {0, 1}
    (by decide) (by decide)

/-- C2 counterexample: the build pass makes the constraint graph symmetric,
so in the graph of `cfgPair` (one constraint between 0 and 1) the source 0
reaches itself in two steps and lies in its own multi-step constraint set,
contradicting the claim that the source is always excluded. -/
theorem claim_C2_counterexample :
    0 ∈ (run_constraint_analysis cfgPair).multi_step_constraint 0 := by
  have h1 : (1 : VariableName) ∈
      (run_constraint_analysis cfgPair).single_step_constraint 0 := by decide
  have h0 : (0 : VariableName) ∈
      (run_constraint_analysis cfgPair).single_step_constraint 1 := by decide
  have hm1 : (1 : VariableName) ∈
      (run_constraint_analysis cfgPair).multi_step_constraint 0 :=
    (run_constraint_analysis cfgPair).single_step_subset_multi 0 h1
  exact (run_constraint_analysis cfgPair).multi_step_closed 0 1 hm1 h0

/-- C2 (amended): for every CFG and variable `A`, the source lies in its own
multi-step constraint set exactly when it has at least one single-step
neighbor; it is excluded only in that degenerate case, because the built
graph is symmetric. -/
theorem claim_C2_amended_self_membership (cfg : Cfg) (A : VariableName) :
    A ∈ (run_constraint_analysis cfg).multi_step_constraint A ↔
      (run_constraint_analysis cfg).single_step_constraint A ≠ ∅ := by
  constructor
  · intro hA hempty
    rw [(run_constraint_analysis cfg).multi_step_empty_of_single_empty A hempty] at hA
    exact Finset.not_mem_empty A hA
  · intro hne
    rcases Finset.nonempty_iff_ne_empty.mpr hne with ⟨B, hB⟩
    have hAB := single_step_run_symm cfg A B hB
    have hBm := (run_constraint_analysis cfg).single_step_subset_multi A hB
    exact (run_constraint_analysis cfg).multi_step_closed A B hBm hAB

/-- C2 witness: the amended equivalence applied to the pair graph at 0. -/
theorem claim_C2_witness :
    0 ∈ (run_constraint_analysis cfgPair).multi_step_constraint 0 :=
  (claim_C2_amended_self_membership cfgPair 0).mpr (by decide)

/-- C3: the constraint map built by `run_constraint_analysis` is symmetric:
if `B` is a single-step neighbor of `A`, then `A` is one of `B`. -/
theorem claim_C3_symmetry (cfg : Cfg) (A B : VariableName)
    (h : B ∈ (run_constraint_analysis cfg).single_step_constraint A) :
    A ∈ (run_constraint_analysis cfg).single_step_constraint B :=
  single_step_run_symm cfg A B h

/-- C3 witness: symmetry on the pair graph, from the edge 0 → 1. -/
theorem claim_C3_witness :
    0 ∈ (run_constraint_analysis cfgPair).single_step_constraint 1 :=
  claim_C3_symmetry cfgPair 0 1 (by decide)

/-- C4: the closure computation is bounded and terminating: the multi-step
set stays inside the finite set of names occurring in the constraint map,
the loop's result grows monotonically (the accumulated result is contained
in the final set), and the loop exits returning the result as soon as the
update set is a subset of the result.  (Totality of `msLoop` itself is the
termination argument, established by the well-founded measure
`card (mapNames ∪ result ∪ update \ result)`.) -/
theorem claim_C4_termination_bound (ca : ConstraintAnalysis) (A : VariableName) :
    ca.multi_step_constraint A ⊆ ca.mapNames ∧
    (∀ r u : Finset VariableName, r ⊆ ConstraintAnalysis.msLoop ca r u) ∧
    (∀ r u : Finset VariableName, u ⊆ r → ConstraintAnalysis.msLoop ca r u = r) :=
  ⟨ca.multi_step_subset_mapNames A,
   fun r u _ hx => ConstraintAnalysis.subset_msLoop ca r u (Finset.mem_union_left _ hx),
   fun r u h => ConstraintAnalysis.msLoop_of_subset ca r u h⟩

/-- C4 witness: the exit clause applied to the pair graph on a concrete
result/update pair with `update ⊆ result`. -/
theorem claim_C4_witness :
    ConstraintAnalysis.msLoop (run_constraint_analysis cfgPair) {0, 1} {1} = {0, 1} :=
  (claim_C4_termination_bound (run_constraint_analysis cfgPair) 0).2.2 {0, 1} {1} (by decide)

/-- C5: clique construction: a constraint-generating statement whose read
name set is {X, Y, Z} (pairwise distinct) makes each of the three names a
single-step neighbor of the two others after the pass; and a CFG none of
whose statements is constraint-generating produces no edges at all. -/
theorem claim_C5_clique :
    (∀ (cfg : Cfg) (s : Statement) (X Y Z : VariableName),
      s ∈ cfg.stmts → s.isConstraintGenerating = true →
      s.usedNames.toFinset = {X, Y, Z} → X ≠ Y → X ≠ Z → Y ≠ Z →
      ({Y, Z} : Finset VariableName) ⊆
          (run_constraint_analysis cfg).single_step_constraint X ∧
      ({X, Z} : Finset VariableName) ⊆
          (run_constraint_analysis cfg).single_step_constraint Y ∧
      ({X, Y} : Finset VariableName) ⊆
          (run_constraint_analysis cfg).single_step_constraint Z) ∧
    (∀ cfg : Cfg, (∀ s ∈ cfg.stmts, s.isConstraintGenerating = false) →
      ∀ a : VariableName, (run_constraint_analysis cfg).single_step_constraint a = ∅) := by
  constructor
  · intro cfg s X Y Z hs hcg hset hXY hXZ hYZ
    have hX : X ∈ s.usedNames := by
      rw [← List.mem_toFinset, hset]
      simp
    have hY : Y ∈ s.usedNames := by
      rw [← List.mem_toFinset, hset]
      simp
    have hZ : Z ∈ s.usedNames := by
      rw [← List.mem_toFinset, hset]
      simp
    refine ⟨?_, ?_, ?_⟩
    · intro w hw
      rw [mem_single_step_run]
      rcases Finset.mem_insert.mp hw with rfl | hw
      · exact ⟨s, hs, hcg, hX, hY, hXY⟩
      · rw [Finset.mem_singleton] at hw
        subst hw
        exact ⟨s, hs, hcg, hX, hZ, hXZ⟩
    · intro w hw
      rw [mem_single_step_run]
      rcases Finset.mem_insert.mp hw with rfl | hw
      · exact ⟨s, hs, hcg, hY, hX, hXY.symm⟩
      · rw [Finset.mem_singleton] at hw
        subst hw
        exact ⟨s, hs, hcg, hY, hZ, hYZ⟩
    · intro w hw
      rw [mem_single_step_run]
      rcases Finset.mem_insert.mp hw with rfl | hw
      · exact ⟨s, hs, hcg, hZ, hX, hXZ.symm⟩
      · rw [Finset.mem_singleton] at hw
        subst hw
        exact ⟨s, hs, hcg, hZ, hY, hYZ.symm⟩
  · intro cfg h a
    rw [Finset.eq_empty_iff_forall_not_mem]
    intro b hb
    rw [mem_single_step_run] at hb
    rcases hb with ⟨s, hs, hcg, _, _, _⟩
    rw [h s hs] at hcg
    exact Bool.false_ne_true hcg

/-- C5 witness: the clique half applied to the concrete three-variable
constraint CFG. -/
theorem claim_C5_witness :
    ({1, 2} : Finset VariableName) ⊆
        (run_constraint_analysis cfgTriple).single_step_constraint 0 ∧
    ({0, 2} : Finset VariableName) ⊆
        (run_constraint_analysis cfgTriple).single_step_constraint 1 ∧
    ({0, 1} : Finset VariableName) ⊆
        (run_constraint_analysis cfgTriple).single_step_constraint 2 :=
  claim_C5_clique.1 cfgTriple
    (Statement.constraintEquality 0
      [VariableUse.mk 0 0 [], VariableUse.mk 0 1 [], VariableUse.mk 0 2 []])
    0 1 2 (by decide) (by decide) (by decide) (by decide) (by decide) (by decide)

/-- C6: a ConstraintEquality and a constraint-generating Substitution with
the same used-variable list induce exactly the same single-step edges when
processed, and on the concrete component of the source's test (`in` = 0,
`out` = 1, `tmp` = 2) both variants produce single-step sets of sizes 2, 1
and 1 respectively. -/
theorem claim_C6_equal_treatment :
    (∀ (ca : ConstraintAnalysis) (m1 m2 : Nat) (written used : List VariableUse)
        (a b : VariableName),
      b ∈ (processStatement ca (Statement.constraintEquality m1 used)
            ).single_step_constraint a ↔
      b ∈ (processStatement ca (Statement.substitution m2 AssignOp.assignConstraintSignal
            written used)).single_step_constraint a) ∧
    ((run_constraint_analysis cfgA).single_step_constraint 0).card = 2 ∧
    ((run_constraint_analysis cfgA).single_step_constraint 1).card = 1 ∧
    ((run_constraint_analysis cfgA).single_step_constraint 2).card = 1 ∧
    ((run_constraint_analysis cfgB).single_step_constraint 0).card = 2 ∧
    ((run_constraint_analysis cfgB).single_step_constraint 1).card = 1 ∧
    ((run_constraint_analysis cfgB).single_step_constraint 2).card = 1 := by
  refine ⟨?_, by decide, by decide, by decide, by decide, by decide, by decide⟩
  intro ca m1 m2 written used a b
  rw [mem_single_step_processStatement, mem_single_step_processStatement]
  simp [Statement.isConstraintGenerating, Statement.usedNames, Statement.variablesUsed]

/-- C7: non-reflexivity of single-step edges: the build pass never inserts a
self-edge, so no variable is a single-step neighbor of itself. -/
theorem claim_C7_irreflexive (cfg : Cfg) (A : VariableName) :
    A ∉ (run_constraint_analysis cfg).single_step_constraint A := by
  rw [mem_single_step_run]
  rintro ⟨s, _, _, _, _, hne⟩
  exact hne rfl

/-- C7 witness: irreflexivity at variable 0 of the pair graph. -/
theorem claim_C7_witness :
    0 ∉ (run_constraint_analysis cfgPair).single_step_constraint 0 :=
  claim_C7_irreflexive cfgPair 0

/-- C8: querying a name the pass never recorded is not an error: a name
never written has no definition, a name never declared has no declaration,
and a name never read by a constraint-generating statement has empty
single-step and multi-step sets. -/
theorem claim_C8_unrecorded_queries (cfg : Cfg) (n : VariableName) :
    ((∀ s ∈ cfg.stmts, n ∉ s.writtenNames) →
      (run_constraint_analysis cfg).get_definition n = none) ∧
    ((∀ s ∈ cfg.stmts, n ∉ s.declaredNames) →
      (run_constraint_analysis cfg).get_declaration n = none) ∧
    ((∀ s ∈ cfg.stmts, s.isConstraintGenerating = true → n ∉ s.usedNames) →
      (run_constraint_analysis cfg).single_step_constraint n = ∅ ∧
      (run_constraint_analysis cfg).multi_step_constraint n = ∅) := by
  refine ⟨get_definition_run_eq_none cfg n, get_declaration_run_eq_none cfg n, fun h => ?_⟩
  have hss := single_step_run_empty cfg n h
  exact ⟨hss, (run_constraint_analysis cfg).multi_step_empty_of_single_empty n hss⟩

/-- C8 witness: all four queries on the never-recorded name 7 of the pair
graph. -/
theorem claim_C8_witness :
    (run_constraint_analysis cfgPair).get_definition 7 = none ∧
    (run_constraint_analysis cfgPair).get_declaration 7 = none ∧
    (run_constraint_analysis cfgPair).single_step_constraint 7 = ∅ ∧
    (run_constraint_analysis cfgPair).multi_step_constraint 7 = ∅ :=
  ⟨(claim_C8_unrecorded_queries cfgPair 7).1 (by decide),
   (claim_C8_unrecorded_queries cfgPair 7).2.1 (by decide),
   ((claim_C8_unrecorded_queries cfgPair 7).2.2 (by decide)).1,
   ((claim_C8_unrecorded_queries cfgPair 7).2.2 (by decide)).2⟩

/-- C9: definitions are recorded for every write with last-writer-wins
semantics: `get_definition` returns exactly the last written use with the
queried name (in block visit order), every written name has a definition,
and a declared-but-never-written variable (variable 9 of `cfgDecl`) has a
declaration but no definition. -/
theorem claim_C9_definitions_last_writer :
    (∀ (cfg : Cfg) (n : VariableName),
      (run_constraint_analysis cfg).get_definition n = lastWriteUse cfg n) ∧
    (∀ (cfg : Cfg) (n : VariableName),
      (∃ s ∈ cfg.stmts, n ∈ s.writtenNames) →
      ((run_constraint_analysis cfg).get_definition n).isSome = true) ∧
    ((run_constraint_analysis cfgDecl).get_declaration 9).isSome = true ∧
    (run_constraint_analysis cfgDecl).get_definition 9 = none := by
  refine ⟨fun cfg n => get_definition_run cfg n, fun cfg n h => ?_, by decide, by decide⟩
  rw [get_definition_run, List.find?_isSome]
  rcases h with ⟨s, hs, hn⟩
  unfold Statement.writtenNames at hn
  rcases List.mem_map.mp hn with ⟨u, hu, hun⟩
  refine ⟨u, ?_, by simp [hun]⟩
  rw [List.mem_reverse]
  unfold Cfg.allWrites
  rw [List.mem_flatMap]
  exact ⟨s, hs, hu⟩

/-- C9 witness: the written-implies-defined half at `tmp` (= 2) of the test
component. -/
theorem claim_C9_witness :
    ((run_constraint_analysis cfgA).get_definition 2).isSome = true :=
  claim_C9_definitions_last_writer.2.1 cfgA 2
    ⟨Statement.substitution 1 AssignOp.assignConstraintSignal
        [VariableUse.mk 1 2 []] [VariableUse.mk 1 2 [], VariableUse.mk 1 0 []],
     by decide, by decide⟩

/-- C10: every variable use recorded as a declaration carries an empty
access path, both through `get_declaration` and through the `declarations()`
iterator. -/
theorem claim_C10_declaration_empty_access (cfg : Cfg) (n : VariableName) (u : VariableUse) :
    ((run_constraint_analysis cfg).get_declaration n = some u → u.accesses = []) ∧
    (∀ w ∈ (run_constraint_analysis cfg).declarationsList, w.accesses = []) := by
  constructor
  · intro h
    unfold ConstraintAnalysis.get_declaration ConstraintAnalysis.alistFind at h
    rcases Option.map_eq_some'.mp h with ⟨p, hfind, hpu⟩
    have hp := List.mem_of_find?_eq_some hfind
    have hacc := (mem_declarations_run cfg p hp).2.2
    exact hpu ▸ hacc
  · intro w hw
    unfold ConstraintAnalysis.declarationsList at hw
    rcases List.mem_map.mp hw with ⟨p, hp, hpw⟩
    exact hpw ▸ (mem_declarations_run cfg p hp).2.2

/-- C10 witness: the declaration recorded for variable 9 of `cfgDecl` has an
empty access path. -/
theorem claim_C10_witness :
    (run_constraint_analysis cfgDecl).get_declaration 9 = some (VariableUse.mk 0 9 []) ∧
    (VariableUse.mk 0 9 []).accesses = [] :=
  ⟨by decide,
   (claim_C10_declaration_empty_access cfgDecl 9 (VariableUse.mk 0 9 [])).1 (by decide)⟩
